import Mathlib

/-!
# go-telnet: the relay loop of `client/telnet_client.go`

A shallow embedding of `TelnetClient.ProcessData`, of its two reader
goroutines `readInputData` and `readServerData`, and of `assertEOF`.

* Go byte slices and Go strings are lists of bytes.
* A Go `error` is either the sentinel `io.EOF` or any other error value,
  known through the text its `Error()` method returns.
* The `select` loop of `ProcessData` is a step function over the events the
  `select` can take; time is a natural number of nanoseconds, and the channel
  of `afterEOFResponseTicker` is `none` for the zero `time.Ticker` (a nil
  channel, never ready) and `some d` when the next tick is due at time `d`.
* The reader goroutines are functions from the results of the successive
  `Read` calls to the values they send on their channels.
* The input path and the inbound path are also given each with its two
  goroutines side by side, as steps a scheduler chooses among, over the one
  buffer that the reader hands to the loop slice by slice.
-/

namespace GoTelnet

/-! ## Bytes, strings, errors -/

/-- One octet. -/
abbrev Byte := Fin 256

/-- A Go string or byte slice: a sequence of octets, with no encoding imposed. -/
abbrev GoString := List Byte

/-- The octets of an ASCII literal of the source. -/
def ascii (s : String) : GoString :=
  s.data.map (fun c => Fin.ofNat c.toNat)

/-- Go `error` values: the sentinel `io.EOF`, or any other error with the
text of its `Error()` method. -/
inductive GoError where
  | EOF : GoError
  | other (msg : GoString) : GoError
  deriving DecidableEq, Repr

/-- The method `Error()`; `io.EOF` is `errors.New("EOF")`. -/
def GoError.Error : GoError → GoString
  | GoError.EOF => ascii "EOF"
  | GoError.other msg => msg

/-- The verbs of `fmt.Sprintf` this program uses: `%v` applied to a string
operand writes the operand's octets as they are, `%%` writes a percent sign,
every other octet of the format is copied. A `%v` without operand prints
`%!v(MISSING)` as the library does; other verbs, a percent sign that ends the
format and operands left over do not occur in this program. -/
def Sprintf : GoString → List GoString → GoString
  | [], _ => []
  | [c], _ => [c]
  | c :: d :: rest, args =>
    if c = 37 ∧ d = 118 then
      match args with
      | a :: args' => a ++ Sprintf rest args'
      | [] => ascii "%!v(MISSING)" ++ Sprintf rest []
    else if c = 37 ∧ d = 37 then
      37 :: Sprintf rest args
    else
      c :: Sprintf (d :: rest) args

/-- The call `fmt.Errorf(format, args...)` with no `%w` verb: an error whose
text is the formatted string. -/
def Errorf (format : GoString) (args : List GoString) : GoError :=
  GoError.other (Sprintf format args)

/-- The conversion `[]byte(fmt.Sprintf("%v", string(response)))` of line 93. -/
def renderResponse (response : GoString) : GoString :=
  Sprintf (ascii "%v") [response]

/-! ## The decision loop of `ProcessData` (lines 79-106) -/

/-- The fields of `TelnetClient` the relay reads: durations are Go
`time.Duration` values, signed counts of nanoseconds. -/
structure TelnetClient where
  responseTimeout : Int
  dialTimeout : Int
  deriving DecidableEq, Repr

/-- A `time.Ticker` seen through its channel `C`: `none` is the nil channel
of the zero value `new(time.Ticker)`, on which a receive never succeeds;
`some d` is a running ticker whose next tick is sent at time `d`. -/
structure Ticker where
  C : Option Nat
  deriving DecidableEq, Repr

/-- The call `time.NewTicker(d)` made at time `now`: it panics (`none`) when
`d` is not positive, else the first tick comes `d` nanoseconds later. -/
def NewTicker (now : Nat) (d : Int) : Option Ticker :=
  if d ≤ 0 then none else some ⟨some (now + d.toNat)⟩

/-- The local variables of the loop, the clock, and what the loop has done
to the outside so far: the arguments of the calls of `connection.Write`, in
call order, and the bytes handed to `outputData.Write`. -/
structure LoopState where
  afterEOFMode : Bool
  somethingRead : Bool
  afterEOFResponseTicker : Ticker
  now : Nat
  written : List GoString
  output : GoString
  deriving DecidableEq, Repr

/-- The state at line 83, before the first `select`, at time `now`. -/
def LoopState.init (now : Nat) : LoopState :=
  { afterEOFMode := false, somethingRead := false,
    afterEOFResponseTicker := ⟨none⟩, now := now, written := [], output := [] }

/-- What the `select` of line 84 can take, and the passing of time.
`request chunk werr` is a receive from `requestDataChannel` of a slice whose
bytes are `chunk` when `connection.Write` runs, and `werr` is the error that
call reports. `response chunk` is a receive from `responseDataChannel` of a
slice whose bytes are `chunk` when line 93 runs. `wait d` lets `d` nanoseconds
pass with no case taken. The slices alias the buffers of the reader
goroutines: what they hold when the loop uses them is fixed by `Relay` for the
input path and by `Inbound` for the inbound path. -/
inductive Event where
  | request (chunk : GoString) (werr : Option GoError) : Event
  | done : Event
  | response (chunk : GoString) : Event
  | tick : Event
  | wait (d : Nat) : Event
  deriving DecidableEq, Repr

/-- The result of one iteration: the loop goes on, `ProcessData` returns
(`none` is a nil error), a panic, or the event cannot be taken in this state
(the tick of a ticker that is nil or not yet due). -/
inductive Outcome where
  | next (s : LoopState) : Outcome
  | returned (err : Option GoError) (s : LoopState) : Outcome
  | panicked (s : LoopState) : Outcome
  | notReady : Outcome
  deriving DecidableEq, Repr

/-- Whether the case `<-afterEOFResponseTicker.C` is ready. -/
def tickReady (s : LoopState) : Bool :=
  match s.afterEOFResponseTicker.C with
  | none => false
  | some d => decide (d ≤ s.now)

/-- One iteration of the `for`/`select` of lines 83-106. -/
def step (t : TelnetClient) (s : LoopState) : Event → Outcome
  | Event.request chunk werr =>
    let s1 := { s with written := s.written ++ [chunk] }
    match werr with
    | some error =>
      Outcome.returned
        (some (Errorf (ascii "Error occured while writing to TCP socket: %v\n") [error.Error])) s1
    | none => Outcome.next s1
  | Event.done =>
    match NewTicker s.now t.responseTimeout with
    | none => Outcome.panicked { s with afterEOFMode := true }
    | some ticker =>
      Outcome.next { s with afterEOFMode := true, afterEOFResponseTicker := ticker }
  | Event.response chunk =>
    let s1 := { s with output := s.output ++ renderResponse chunk, somethingRead := true }
    if s.afterEOFMode then
      match NewTicker s.now t.responseTimeout with
      | none => Outcome.panicked s1
      | some ticker => Outcome.next { s1 with afterEOFResponseTicker := ticker }
    else Outcome.next s1
  | Event.tick =>
    if tickReady s then
      if !s.somethingRead then
        Outcome.returned (some (Errorf (ascii "Nothing read. Maybe connection timeout.") [])) s
      else Outcome.returned none s
    else Outcome.notReady
  | Event.wait d => Outcome.next { s with now := s.now + d }

/-- The loop run along a sequence of events, from a state: the outcome of
the first iteration that does not go on, else the state reached. -/
def run (t : TelnetClient) : LoopState → List Event → Outcome
  | s, [] => Outcome.next s
  | s, e :: es =>
    match step t s e with
    | Outcome.next s1 => run t s1 es
    | o => o

/-- The decision loop of `ProcessData` started at time `now`. -/
def ProcessData (t : TelnetClient) (now : Nat) (events : List Event) : Outcome :=
  run t (LoopState.init now) events

/-- The error of line 102. -/
def nothingReadError : GoError :=
  GoError.other (ascii "Nothing read. Maybe connection timeout.")

/-! ## The reader goroutines (lines 109-142) -/

/-- The constant of line 13. -/
def defaultBufferSize : Nat := 4096

/-- The result of one call of `Read`: the bytes it delivers and its error. -/
structure ReadResult where
  data : GoString
  err : Option GoError
  deriving DecidableEq, Repr

/-- The call `Read(buffer)` that has `r` to deliver: at most `len(buffer)`
bytes are copied to the front of the buffer, whose other bytes stay; gives the
buffer after the call, `n` and the error. -/
def Read (buffer : List Byte) (r : ReadResult) : List Byte × Nat × Option GoError :=
  let n := min r.data.length buffer.length
  (r.data.take n ++ buffer.drop n, n, r.err)

/-- The function `assertEOF` of lines 138-142: `some msg` is the call of
`log.Fatalf`, which prints `msg` and ends the process; `none` is a return. -/
def assertEOF (error : GoError) : Option GoString :=
  if ascii "EOF" ≠ error.Error then
    some (Sprintf (ascii "Error occured while operating on TCP socket: %v\n") [error.Error])
  else none

/-- What `readInputData` sends: a slice on `toSent`, or `true` on `doneChannel`. -/
inductive InputSend where
  | toSent (chunk : GoString) : InputSend
  | doneChannel : InputSend
  deriving DecidableEq, Repr

/-- How a reader goroutine ends: it returns, the process is ended by
`log.Fatalf`, or a `Read` never returns (no further result). -/
inductive ReaderEnd where
  | returned : ReaderEnd
  | fatal (msg : GoString) : ReaderEnd
  | blocked : ReaderEnd
  deriving DecidableEq, Repr

/-- The loop of lines 116-119 and lines 121-122, from a buffer: the sends in
order and the way the goroutine ends. -/
def readInputDataFrom (buffer : List Byte) : List ReadResult → List InputSend × ReaderEnd
  | [] => ([], ReaderEnd.blocked)
  | r :: rs =>
    let (buffer1, n, error) := Read buffer r
    let sent := InputSend.toSent (buffer1.take n)
    match error with
    | none =>
      let (sends, e) := readInputDataFrom buffer1 rs
      (sent :: sends, e)
    | some error =>
      match assertEOF error with
      | some msg => ([sent], ReaderEnd.fatal msg)
      | none => ([sent, InputSend.doneChannel], ReaderEnd.returned)

/-- The function `readInputData` (lines 109-123) on the results of the
successive reads of the input. -/
def readInputData (reads : List ReadResult) : List InputSend × ReaderEnd :=
  readInputDataFrom (List.replicate defaultBufferSize 0) reads

/-- The loop of lines 130-133 and line 135, from a buffer: the slices sent
on `received` in order and the way the goroutine ends. -/
def readServerDataFrom (buffer : List Byte) : List ReadResult → List GoString × ReaderEnd
  | [] => ([], ReaderEnd.blocked)
  | r :: rs =>
    let (buffer1, n, error) := Read buffer r
    let sent := buffer1.take n
    match error with
    | none =>
      let (sends, e) := readServerDataFrom buffer1 rs
      (sent :: sends, e)
    | some error =>
      match assertEOF error with
      | some msg => ([sent], ReaderEnd.fatal msg)
      | none => ([sent], ReaderEnd.returned)

/-- The function `readServerData` (lines 125-136) on the results of the
successive reads of the connection. -/
def readServerData (reads : List ReadResult) : List GoString × ReaderEnd :=
  readServerDataFrom (List.replicate defaultBufferSize 0) reads

/-- The event the loop takes for a send of `readInputData`, when the write
of a chunk reports no error. -/
def InputSend.toEvent : InputSend → Event
  | InputSend.toSent chunk => Event.request chunk none
  | InputSend.doneChannel => Event.done

/-- A read result cut to what a buffer of `k` bytes can take. -/
def fitTo (k : Nat) (r : ReadResult) : ReadResult :=
  ⟨r.data.take k, r.err⟩

/-- The slices among the sends of `readInputData`, in order. -/
def InputSend.chunks : List InputSend → List GoString
  | [] => []
  | InputSend.toSent chunk :: rest => chunk :: InputSend.chunks rest
  | InputSend.doneChannel :: rest => InputSend.chunks rest

/-- The sends of `readInputData` written on the read results alone, for
reads that fit the buffer: every read gives one chunk holding its bytes. -/
def inputSends : List ReadResult → List InputSend × ReaderEnd
  | [] => ([], ReaderEnd.blocked)
  | r :: rs =>
    match r.err with
    | none => (InputSend.toSent r.data :: (inputSends rs).1, (inputSends rs).2)
    | some error =>
      match assertEOF error with
      | some msg => ([InputSend.toSent r.data], ReaderEnd.fatal msg)
      | none => ([InputSend.toSent r.data, InputSend.doneChannel], ReaderEnd.returned)

/-- The sends of `readServerData` written on the read results alone. -/
def serverSends : List ReadResult → List GoString × ReaderEnd
  | [] => ([], ReaderEnd.blocked)
  | r :: rs =>
    match r.err with
    | none => (r.data :: (serverSends rs).1, (serverSends rs).2)
    | some error =>
      match assertEOF error with
      | some msg => ([r.data], ReaderEnd.fatal msg)
      | none => ([r.data], ReaderEnd.returned)

/-- The chunks of the inbound-data events of a trace, in order. -/
def responsesOf : List Event → List GoString
  | [] => []
  | Event.response chunk :: es => chunk :: responsesOf es
  | _ :: es => responsesOf es

/-- The trace of the idle-countdown scenario: the input ends, then twice a
wait of `T - ε` followed by the receipt of the byte `b`, then a wait of
`T + ε`. -/
def resetScenario (T ε : Nat) (b : Byte) : List Event :=
  [Event.done, Event.wait (T - ε), Event.response [b], Event.wait (T - ε),
    Event.response [b], Event.wait (T + ε)]

/-! ## The input path with its two goroutines -/

/-- Where the goroutine `readInputData` stands: before the `Read` of line
117; blocked in the send of line 118 with `n` and `error` as the read left
them; before `assertEOF` of line 121; blocked in the send of line 122; ended. -/
inductive ReaderPC where
  | atRead : ReaderPC
  | atSend (n : Nat) (error : Option GoError) : ReaderPC
  | atAssert (error : GoError) : ReaderPC
  | atDone : ReaderPC
  | ended (e : ReaderEnd) : ReaderPC
  deriving DecidableEq, Repr

/-- The goroutine `readInputData` and the decision loop side by side.
`buffer` is the one array of line 110: every slice sent on `toSent` is
`buffer[:n]` and shares it. `request` is `some n` from the moment the loop
has received the slice `buffer[:n]` (line 85) until it has called
`connection.Write` on it (line 86). -/
structure Relay where
  buffer : List Byte
  reads : List ReadResult
  pc : ReaderPC
  request : Option Nat
  loop : LoopState
  deriving DecidableEq, Repr

/-- The steps a scheduler can choose: the reader runs its `Read`; the send
of line 118 meets the receive of line 85; the loop runs `connection.Write`,
which reports `werr`; the reader runs `assertEOF`; the send of line 122 meets
the receive of line 89; the loop takes another case of the `select` or time
passes. -/
inductive Move where
  | read : Move
  | handOver : Move
  | write (werr : Option GoError) : Move
  | assert : Move
  | signal : Move
  | other (e : Event) : Move
  deriving DecidableEq, Repr

/-- The loop state after an iteration that goes on. -/
def Outcome.next? : Outcome → Option LoopState
  | Outcome.next s => some s
  | _ => none

/-- One step of the two goroutines; `none` when the step cannot be taken in
this state, or when it ends the loop or the process. -/
def move (t : TelnetClient) (r : Relay) : Move → Option Relay
  | Move.read =>
    match r.pc, r.reads with
    | ReaderPC.atRead, x :: xs =>
      some { r with buffer := (Read r.buffer x).1, reads := xs,
                    pc := ReaderPC.atSend (Read r.buffer x).2.1 (Read r.buffer x).2.2 }
    | _, _ => none
  | Move.handOver =>
    match r.pc, r.request with
    | ReaderPC.atSend n error, none =>
      some { r with request := some n,
                    pc := match error with
                      | none => ReaderPC.atRead
                      | some err => ReaderPC.atAssert err }
    | _, _ => none
  | Move.write werr =>
    match r.request with
    | some n =>
      (step t r.loop (Event.request (r.buffer.take n) werr)).next?.map
        (fun s => { r with request := none, loop := s })
    | none => none
  | Move.assert =>
    match r.pc with
    | ReaderPC.atAssert error =>
      match assertEOF error with
      | some _ => none
      | none => some { r with pc := ReaderPC.atDone }
    | _ => none
  | Move.signal =>
    match r.pc, r.request with
    | ReaderPC.atDone, none =>
      (step t r.loop Event.done).next?.map
        (fun s => { r with pc := ReaderPC.ended ReaderEnd.returned, loop := s })
    | _, _ => none
  | Move.other e =>
    match r.request, e with
    | none, Event.response chunk =>
      (step t r.loop (Event.response chunk)).next?.map (fun s => { r with loop := s })
    | none, Event.tick =>
      (step t r.loop Event.tick).next?.map (fun s => { r with loop := s })
    | _, Event.wait d =>
      (step t r.loop (Event.wait d)).next?.map (fun s => { r with loop := s })
    | _, _ => none

/-- A schedule run from a state. -/
def exec (t : TelnetClient) : Relay → List Move → Option Relay
  | r, [] => some r
  | r, m :: ms =>
    match move t r m with
    | some r1 => exec t r1 ms
    | none => none

/-- The two goroutines at the start of `ProcessData`, at time `now`, with
the results of the reads of the input still to come. -/
def Relay.init (now : Nat) (reads : List ReadResult) : Relay :=
  { buffer := List.replicate defaultBufferSize 0, reads := reads,
    pc := ReaderPC.atRead, request := none, loop := LoopState.init now }

/-- The schedule in which the reader's second `Read` runs after the loop has
received the first slice and before the loop writes it. -/
def overlappingSchedule : List Move :=
  [Move.read, Move.handOver, Move.read, Move.write none, Move.handOver, Move.write none,
    Move.read, Move.handOver, Move.write none, Move.assert, Move.signal]

/-- The schedule in which every slice is written before the next `Read`. -/
def orderlySchedule : List Move :=
  [Move.read, Move.handOver, Move.write none, Move.read, Move.handOver, Move.write none,
    Move.read, Move.handOver, Move.write none, Move.assert, Move.signal]

/-- The input "AB" delivered one byte at a time: a read of the byte 65, a
read of the byte 66, and a last read of zero bytes with `io.EOF`. -/
def inputAB : List ReadResult :=
  [⟨[65], none⟩, ⟨[66], none⟩, ⟨[], some GoError.EOF⟩]

/-- The bytes of a slice on its way from the reader to the connection: sent
or about to be sent on `toSent`, and not yet written. -/
def Relay.inflight (r : Relay) : GoString :=
  match r.request, r.pc with
  | some n, _ => r.buffer.take n
  | none, ReaderPC.atSend n _ => r.buffer.take n
  | none, _ => []

/-- Whether a step keeps the reader's `Read` away from a slice the loop holds
and has not yet written. -/
def Relay.orderlyMove (r : Relay) : Move → Bool
  | Move.read => r.request.isNone
  | _ => true

/-- A schedule run from a state, in which no `Read` of the reader runs while
the loop holds an unwritten slice; `none` also when the schedule has one. -/
def execOrderly (t : TelnetClient) : Relay → List Move → Option Relay
  | r, [] => some r
  | r, m :: ms =>
    if r.orderlyMove m then
      match move t r m with
      | some r1 => execOrderly t r1 ms
      | none => none
    else none

/-- The invariant of the schedules without overlap, after the reads
`performed`: the buffer keeps its size, the reads to come fit it, the bytes
written followed by the bytes in flight are the bytes read, and once the loop
is in `afterEOFMode` the reader has ended and nothing is in flight. -/
def Relay.Orderly (performed : List ReadResult) (r : Relay) : Prop :=
  r.buffer.length = defaultBufferSize ∧
  (∀ x ∈ r.reads, x.data.length ≤ defaultBufferSize) ∧
  r.loop.written.flatten ++ r.inflight = (performed.map (fun x => x.data)).flatten ∧
  (r.loop.afterEOFMode = true → r.pc = ReaderPC.ended ReaderEnd.returned ∧ r.request = none) ∧
  (∀ n e, r.pc = ReaderPC.atSend n e → r.request = none)

/-! ## The inbound path with its two goroutines -/

/-- Where the goroutine `readServerData` stands: before the `Read` of line
131; blocked in the send of line 132 with `n` and `error` as the read left
them; before `assertEOF` of line 135; ended. -/
inductive ServerPC where
  | atRead : ServerPC
  | atSend (n : Nat) (error : Option GoError) : ServerPC
  | atAssert (error : GoError) : ServerPC
  | ended (e : ReaderEnd) : ServerPC
  deriving DecidableEq, Repr

/-- The goroutine `readServerData` and the decision loop side by side.
`buffer` is the one array of line 126: every slice sent on `received` is
`buffer[:n]` and shares it. `response` is `some n` from the moment the loop
has received the slice `buffer[:n]` (line 92) until it has copied it with
`string(response)` and given it to `outputData.Write` (line 93). -/
structure Inbound where
  buffer : List Byte
  reads : List ReadResult
  pc : ServerPC
  response : Option Nat
  loop : LoopState
  deriving DecidableEq, Repr

/-- The steps a scheduler can choose on the inbound path: the reader runs
its `connection.Read`; the send of line 132 meets the receive of line 92; the
loop runs lines 93-99 on the slice it holds; the reader runs `assertEOF`; the
loop takes another case of the `select` or time passes. -/
inductive InMove where
  | read : InMove
  | handOver : InMove
  | output : InMove
  | assert : InMove
  | other (e : Event) : InMove
  deriving DecidableEq, Repr

/-- One step of the two goroutines of the inbound path; `none` when the step
cannot be taken in this state, or when it ends the loop or the process. -/
def inMove (t : TelnetClient) (r : Inbound) : InMove → Option Inbound
  | InMove.read =>
    match r.pc, r.reads with
    | ServerPC.atRead, x :: xs =>
      some { r with buffer := (Read r.buffer x).1, reads := xs,
                    pc := ServerPC.atSend (Read r.buffer x).2.1 (Read r.buffer x).2.2 }
    | _, _ => none
  | InMove.handOver =>
    match r.pc, r.response with
    | ServerPC.atSend n error, none =>
      some { r with response := some n,
                    pc := match error with
                      | none => ServerPC.atRead
                      | some err => ServerPC.atAssert err }
    | _, _ => none
  | InMove.output =>
    match r.response with
    | some n =>
      (step t r.loop (Event.response (r.buffer.take n))).next?.map
        (fun s => { r with response := none, loop := s })
    | none => none
  | InMove.assert =>
    match r.pc with
    | ServerPC.atAssert error =>
      match assertEOF error with
      | some _ => none
      | none => some { r with pc := ServerPC.ended ReaderEnd.returned }
    | _ => none
  | InMove.other e =>
    match r.response, e with
    | _, Event.response _ => none
    | _, Event.wait d =>
      (step t r.loop (Event.wait d)).next?.map (fun s => { r with loop := s })
    | none, e1 => (step t r.loop e1).next?.map (fun s => { r with loop := s })
    | some _, _ => none

/-- A schedule of the inbound path run from a state. -/
def inExec (t : TelnetClient) : Inbound → List InMove → Option Inbound
  | r, [] => some r
  | r, m :: ms =>
    match inMove t r m with
    | some r1 => inExec t r1 ms
    | none => none

/-- The two goroutines of the inbound path at the start of `ProcessData`, at
time `now`, with the results of the reads of the connection still to come. -/
def Inbound.init (now : Nat) (reads : List ReadResult) : Inbound :=
  { buffer := List.replicate defaultBufferSize 0, reads := reads,
    pc := ServerPC.atRead, response := none, loop := LoopState.init now }

/-- The schedule in which the reader's second `connection.Read` runs after
the loop has received the first slice and before the loop copies it. -/
def overlappingInbound : List InMove :=
  [InMove.read, InMove.handOver, InMove.read, InMove.output, InMove.handOver, InMove.output,
    InMove.read, InMove.handOver, InMove.output, InMove.assert]

/-- The schedule in which every slice is copied before the next
`connection.Read`. -/
def orderlyInbound : List InMove :=
  [InMove.read, InMove.handOver, InMove.output, InMove.read, InMove.handOver, InMove.output,
    InMove.read, InMove.handOver, InMove.output, InMove.assert]

/-- The reply "AB" of the remote side received one byte at a time: a read
of the byte 65, a read of the byte 66, and a last read of zero bytes with
`io.EOF` when the remote side closes. -/
def remoteAB : List ReadResult :=
  [⟨[65], none⟩, ⟨[66], none⟩, ⟨[], some GoError.EOF⟩]

/-- The bytes of a slice on its way from the remote reader to the output:
sent or about to be sent on `received`, and not yet copied. -/
def Inbound.inflight (r : Inbound) : GoString :=
  match r.response, r.pc with
  | some n, _ => r.buffer.take n
  | none, ServerPC.atSend n _ => r.buffer.take n
  | none, _ => []

/-- Whether a step keeps the reader's `connection.Read` away from a slice the
loop holds and has not yet copied. -/
def Inbound.orderlyMove (r : Inbound) : InMove → Bool
  | InMove.read => r.response.isNone
  | _ => true

/-- A schedule of the inbound path run from a state, in which no
`connection.Read` runs while the loop holds a slice it has not copied; `none`
also when the schedule has one. -/
def inExecOrderly (t : TelnetClient) : Inbound → List InMove → Option Inbound
  | r, [] => some r
  | r, m :: ms =>
    if r.orderlyMove m then
      match inMove t r m with
      | some r1 => inExecOrderly t r1 ms
      | none => none
    else none

/-- The invariant of the inbound schedules without overlap, after the reads
`performed`: the buffer keeps its size, the reads to come fit it, the bytes on
the output followed by the bytes in flight are the bytes received, and no
slice is both held by the loop and waiting in the send. -/
def Inbound.Orderly (performed : List ReadResult) (r : Inbound) : Prop :=
  r.buffer.length = defaultBufferSize ∧
  (∀ x ∈ r.reads, x.data.length ≤ defaultBufferSize) ∧
  r.loop.output ++ r.inflight = (performed.map (fun x => x.data)).flatten ∧
  (∀ n e, r.pc = ServerPC.atSend n e → r.response = none)

/-! ## Lemmas on the readers -/

theorem Read_length (buffer : List Byte) (r : ReadResult) :
    (Read buffer r).1.length = buffer.length := by
  simp only [Read, List.length_append, List.length_take, List.length_drop]
  omega

theorem Read_take_clamped (buffer : List Byte) (r : ReadResult) :
    (Read buffer r).1.take (Read buffer r).2.1 = r.data.take buffer.length := by
  simp only [Read]
  rw [List.take_append_of_le_length (by simp)]
  rw [List.take_take, Nat.min_self]
  rcases Nat.le_total r.data.length buffer.length with h | h
  · rw [Nat.min_eq_left h, List.take_of_length_le h, List.take_of_length_le (le_refl _)]
  · rw [Nat.min_eq_right h]

theorem Read_take (buffer : List Byte) (r : ReadResult)
    (h : r.data.length ≤ buffer.length) :
    (Read buffer r).1.take (Read buffer r).2.1 = r.data := by
  rw [Read_take_clamped, List.take_of_length_le h]

theorem Read_err (buffer : List Byte) (r : ReadResult) : (Read buffer r).2.2 = r.err := rfl

theorem Read_n (buffer : List Byte) (r : ReadResult) (h : r.data.length ≤ buffer.length) :
    (Read buffer r).2.1 = r.data.length := by
  simp [Read, h]

theorem readInputDataFrom_eq (reads : List ReadResult) :
    ∀ buffer : List Byte,
      readInputDataFrom buffer reads = inputSends (reads.map (fitTo buffer.length)) := by
  induction reads with
  | nil => intro buffer; rfl
  | cons r rs ih =>
    intro buffer
    have ht := Read_take_clamped buffer r
    have hrec := ih (Read buffer r).1
    rw [Read_length] at hrec
    have he : (Read buffer r).2.2 = r.err := rfl
    unfold readInputDataFrom
    simp only [List.map_cons, inputSends, ht, hrec, he, fitTo]

theorem readServerDataFrom_eq (reads : List ReadResult) :
    ∀ buffer : List Byte,
      readServerDataFrom buffer reads = serverSends (reads.map (fitTo buffer.length)) := by
  induction reads with
  | nil => intro buffer; rfl
  | cons r rs ih =>
    intro buffer
    have ht := Read_take_clamped buffer r
    have hrec := ih (Read buffer r).1
    rw [Read_length] at hrec
    have he : (Read buffer r).2.2 = r.err := rfl
    unfold readServerDataFrom
    simp only [List.map_cons, serverSends, ht, hrec, he, fitTo]

theorem defaultBuffer_length :
    (List.replicate defaultBufferSize (0 : Byte)).length = defaultBufferSize := by
  simp only [List.length_replicate]

theorem map_fitTo_of_fits (k : Nat) (reads : List ReadResult)
    (h : ∀ r ∈ reads, r.data.length ≤ k) : reads.map (fitTo k) = reads := by
  induction reads with
  | nil => rfl
  | cons r rs ih =>
    have hr := h r (List.mem_cons_self _ _)
    have hrs := ih (fun x hx => h x (List.mem_cons_of_mem _ hx))
    simp only [List.map_cons, hrs, fitTo, List.take_of_length_le hr]

theorem readInputData_clamped (reads : List ReadResult) :
    readInputData reads = inputSends (reads.map (fitTo defaultBufferSize)) := by
  unfold readInputData
  rw [readInputDataFrom_eq, defaultBuffer_length]

theorem readServerData_clamped (reads : List ReadResult) :
    readServerData reads = serverSends (reads.map (fitTo defaultBufferSize)) := by
  unfold readServerData
  rw [readServerDataFrom_eq, defaultBuffer_length]

theorem readInputData_eq (reads : List ReadResult)
    (h : ∀ r ∈ reads, r.data.length ≤ defaultBufferSize) :
    readInputData reads = inputSends reads := by
  rw [readInputData_clamped, map_fitTo_of_fits _ _ h]

theorem readServerData_eq (reads : List ReadResult)
    (h : ∀ r ∈ reads, r.data.length ≤ defaultBufferSize) :
    readServerData reads = serverSends reads := by
  rw [readServerData_clamped, map_fitTo_of_fits _ _ h]

theorem inputSends_error (pre : List ReadResult) (last : ReadResult) (rest : List ReadResult)
    (e : GoError) (hpre : ∀ r ∈ pre, r.err = none) (hlast : last.err = some e) :
    inputSends (pre ++ last :: rest) =
      match assertEOF e with
      | some msg =>
        ((pre ++ [last]).map (fun r => InputSend.toSent r.data), ReaderEnd.fatal msg)
      | none =>
        ((pre ++ [last]).map (fun r => InputSend.toSent r.data) ++ [InputSend.doneChannel],
          ReaderEnd.returned) := by
  induction pre with
  | nil =>
    simp only [List.nil_append, inputSends, hlast]
    cases assertEOF e <;> rfl
  | cons r rs ih =>
    have hr := hpre r (List.mem_cons_self _ _)
    have hrs := ih (fun x hx => hpre x (List.mem_cons_of_mem _ hx))
    rw [List.cons_append]
    simp only [inputSends, hr]
    rw [hrs]
    cases assertEOF e <;> rfl

theorem serverSends_error (pre : List ReadResult) (last : ReadResult) (rest : List ReadResult)
    (e : GoError) (hpre : ∀ r ∈ pre, r.err = none) (hlast : last.err = some e) :
    serverSends (pre ++ last :: rest) =
      ((pre ++ [last]).map (fun r => r.data),
        match assertEOF e with
        | some msg => ReaderEnd.fatal msg
        | none => ReaderEnd.returned) := by
  induction pre with
  | nil =>
    simp only [List.nil_append, serverSends, hlast]
    cases assertEOF e <;> rfl
  | cons r rs ih =>
    have hr := hpre r (List.mem_cons_self _ _)
    have hrs := ih (fun x hx => hpre x (List.mem_cons_of_mem _ hx))
    rw [List.cons_append]
    simp only [serverSends, hr]
    rw [hrs]
    rfl

theorem map_fitTo_split (k : Nat) (pre : List ReadResult) (last : ReadResult)
    (rest : List ReadResult) :
    (pre ++ last :: rest).map (fitTo k) =
      pre.map (fitTo k) ++ fitTo k last :: rest.map (fitTo k) := by
  simp

theorem chunks_append_done (l : List InputSend) :
    InputSend.chunks (l ++ [InputSend.doneChannel]) = InputSend.chunks l := by
  induction l with
  | nil => rfl
  | cons x xs ih => cases x <;> simp [InputSend.chunks, ih]

/-! ## Lemmas on the decision loop -/

theorem run_append (t : TelnetClient) (tr1 : List Event) :
    ∀ (s : LoopState) (tr2 : List Event),
      run t s (tr1 ++ tr2) =
        match run t s tr1 with
        | Outcome.next s1 => run t s1 tr2
        | o => o := by
  induction tr1 with
  | nil => intro s tr2; rfl
  | cons e es ih =>
    intro s tr2
    simp only [List.cons_append, run]
    cases h : step t s e with
    | next s1 => simpa using ih s1 tr2
    | returned err s1 => rfl
    | panicked s1 => rfl
    | notReady => rfl

theorem run_next_append (t : TelnetClient) (s s1 : LoopState) (tr1 tr2 : List Event)
    (h : run t s tr1 = Outcome.next s1) :
    run t s (tr1 ++ tr2) = run t s1 tr2 := by
  rw [run_append, h]

theorem NewTicker_pos (now : Nat) (d : Int) (h : 0 < d) :
    NewTicker now d = some ⟨some (now + d.toNat)⟩ := by
  unfold NewTicker
  rw [if_neg (by omega)]

theorem renderResponse_id (response : GoString) : renderResponse response = response := by
  show response ++ [] = response
  simp

theorem step_tick_ne_next (t : TelnetClient) (s s1 : LoopState) :
    step t s Event.tick ≠ Outcome.next s1 := by
  simp only [step]
  split
  · split <;> simp
  · simp

theorem step_next_afterEOFMode (t : TelnetClient) (s s1 : LoopState) (e : Event)
    (h : step t s e = Outcome.next s1) :
    (s.afterEOFMode = true → s1.afterEOFMode = true) ∧
    (s1.afterEOFMode = true → s.afterEOFMode = true ∨ e = Event.done) ∧
    ((s.afterEOFResponseTicker.C.isSome = true → s.afterEOFMode = true) →
      (s1.afterEOFResponseTicker.C.isSome = true → s1.afterEOFMode = true)) := by
  cases e with
  | request chunk werr =>
    cases werr with
    | none =>
      simp only [step, Outcome.next.injEq] at h
      subst h
      simp
    | some error => simp [step] at h
  | done =>
    simp only [step] at h
    cases hn : NewTicker s.now t.responseTimeout with
    | none => simp [hn] at h
    | some ticker =>
      simp only [hn, Outcome.next.injEq] at h
      subst h
      simp
  | response chunk =>
    simp only [step] at h
    cases hm : s.afterEOFMode with
    | false =>
      simp only [hm, Bool.false_eq_true, if_false, Outcome.next.injEq] at h
      subst h
      simp [hm]
    | true =>
      simp only [hm, if_true] at h
      cases hn : NewTicker s.now t.responseTimeout with
      | none => simp [hn] at h
      | some ticker =>
        simp only [hn, Outcome.next.injEq] at h
        subst h
        simp [hm]
  | tick => exact absurd h (step_tick_ne_next t s s1)
  | wait d =>
    simp only [step, Outcome.next.injEq] at h
    subst h
    simp

theorem run_invariant (t : TelnetClient) (tr : List Event) :
    ∀ (s s1 : LoopState), run t s tr = Outcome.next s1 →
      (s.afterEOFMode = true → s1.afterEOFMode = true) ∧
      (s1.afterEOFMode = true → s.afterEOFMode = true ∨ Event.done ∈ tr) ∧
      ((s.afterEOFResponseTicker.C.isSome = true → s.afterEOFMode = true) →
        (s1.afterEOFResponseTicker.C.isSome = true → s1.afterEOFMode = true)) := by
  induction tr with
  | nil =>
    intro s s1 h
    simp only [run, Outcome.next.injEq] at h
    subst h
    simp
  | cons e es ih =>
    intro s s1 h
    simp only [run] at h
    cases hs : step t s e with
    | next s2 =>
      simp only [hs] at h
      obtain ⟨a1, a2, a3⟩ := step_next_afterEOFMode t s s2 e hs
      obtain ⟨b1, b2, b3⟩ := ih s2 s1 h
      refine ⟨fun x => b1 (a1 x), ?_, fun x => b3 (a3 x)⟩
      intro x
      rcases b2 x with y | y
      · rcases a2 y with z | z
        · exact Or.inl z
        · exact Or.inr (by simp [z])
      · exact Or.inr (List.mem_cons_of_mem _ y)
    | returned err s2 => simp [hs] at h
    | panicked s2 => simp [hs] at h
    | notReady => simp [hs] at h

theorem tickReady_armed (s : LoopState) (h : tickReady s = true) :
    s.afterEOFResponseTicker.C.isSome = true := by
  unfold tickReady at h
  cases hc : s.afterEOFResponseTicker.C with
  | none => simp [hc] at h
  | some d => rfl

theorem run_output (t : TelnetClient) (tr : List Event) :
    ∀ (s s1 : LoopState), run t s tr = Outcome.next s1 →
      s1.output = s.output ++ (responsesOf tr).flatten ∧
      (responsesOf tr ≠ [] → s1.somethingRead = true) ∧
      (s.somethingRead = true → s1.somethingRead = true) := by
  induction tr with
  | nil =>
    intro s s1 h
    simp only [run, Outcome.next.injEq] at h
    subst h
    simp [responsesOf]
  | cons e es ih =>
    intro s s1 h
    simp only [run] at h
    cases e with
    | request chunk werr =>
      cases werr with
      | none =>
        simp only [step] at h
        simpa [responsesOf] using ih _ s1 h
      | some error => simp [step] at h
    | done =>
      simp only [step] at h
      cases hn : NewTicker s.now t.responseTimeout with
      | none => simp [hn] at h
      | some ticker =>
        simp only [hn] at h
        simpa [responsesOf] using ih _ s1 h
    | response chunk =>
      simp only [step] at h
      cases hm : s.afterEOFMode with
      | false =>
        simp only [hm, Bool.false_eq_true, if_false] at h
        obtain ⟨o1, _, o3⟩ := ih _ s1 h
        simp only [renderResponse_id] at o1
        exact ⟨by simpa [responsesOf, List.append_assoc] using o1, fun _ => o3 rfl, fun _ => o3 rfl⟩
      | true =>
        simp only [hm, if_true] at h
        cases hn : NewTicker s.now t.responseTimeout with
        | none => simp [hn] at h
        | some ticker =>
          simp only [hn] at h
          obtain ⟨o1, _, o3⟩ := ih _ s1 h
          simp only [renderResponse_id] at o1
          exact ⟨by simpa [responsesOf, List.append_assoc] using o1, fun _ => o3 rfl,
            fun _ => o3 rfl⟩
    | tick =>
      cases hs : step t s Event.tick with
      | next s2 => exact absurd hs (step_tick_ne_next t s s2)
      | returned err s2 => simp [hs] at h
      | panicked s2 => simp [hs] at h
      | notReady => simp [hs] at h
    | wait d =>
      simp only [step] at h
      simpa [responsesOf] using ih _ s1 h

theorem run_quiet (t : TelnetClient) (tr : List Event) :
    ∀ (s s1 : LoopState), run t s tr = Outcome.next s1 → responsesOf tr = [] →
      s1.somethingRead = s.somethingRead := by
  induction tr with
  | nil =>
    intro s s1 h _
    simp only [run, Outcome.next.injEq] at h
    subst h
    rfl
  | cons e es ih =>
    intro s s1 h hno
    simp only [run] at h
    cases e with
    | request chunk werr =>
      cases werr with
      | none =>
        simp only [step] at h
        simpa using ih _ s1 h (by simpa [responsesOf] using hno)
      | some error => simp [step] at h
    | done =>
      simp only [step] at h
      cases hn : NewTicker s.now t.responseTimeout with
      | none => simp [hn] at h
      | some ticker =>
        simp only [hn] at h
        simpa using ih _ s1 h (by simpa [responsesOf] using hno)
    | response chunk => simp [responsesOf] at hno
    | tick =>
      cases hs : step t s Event.tick with
      | next s2 => exact absurd hs (step_tick_ne_next t s s2)
      | returned err s2 => simp [hs] at h
      | panicked s2 => simp [hs] at h
      | notReady => simp [hs] at h
    | wait d =>
      simp only [step] at h
      simpa using ih _ s1 h (by simpa [responsesOf] using hno)

theorem run_responses (t : TelnetClient) (h : 0 < t.responseTimeout) (chunks : List GoString) :
    ∀ s : LoopState, ∃ s1, run t s (chunks.map Event.response) = Outcome.next s1 := by
  induction chunks with
  | nil => intro s; exact ⟨s, rfl⟩
  | cons c cs ih =>
    intro s
    simp only [List.map_cons, run, step, NewTicker_pos _ _ h]
    cases s.afterEOFMode with
    | false => simpa using ih _
    | true => simpa using ih _

theorem responsesOf_map (chunks : List GoString) :
    responsesOf (chunks.map Event.response) = chunks := by
  induction chunks with
  | nil => rfl
  | cons c cs ih => simp [responsesOf, ih]

/-! ## The claims on the decision loop -/

/-- C1: when the idle-timer case is the one taken, `ProcessData` returns at
that iteration, whatever events would follow: with a nil error exactly when
`somethingRead` is true, and otherwise with the error
"Nothing read. Maybe connection timeout.". -/
theorem idle_timer_branch_returns (t : TelnetClient) (s : LoopState) (rest : List Event)
    (h : tickReady s = true) :
    ∃ err, run t s (Event.tick :: rest) = Outcome.returned err s ∧
      (err = none ↔ s.somethingRead = true) ∧
      (s.somethingRead = false → err = some nothingReadError) := by
  simp only [run, step, h, if_true]
  cases hs : s.somethingRead with
  | false => exact ⟨some nothingReadError, by rfl, by simp, fun _ => rfl⟩
  | true => exact ⟨none, by rfl, by simp, by simp⟩

/-- C1 at a state with a due ticker and nothing read: the return is the error
of line 102. -/
theorem idle_timer_branch_returns_witness :
    tickReady ⟨true, false, ⟨some 50⟩, 50, [], []⟩ = true ∧
    ∃ err, run ⟨50, 0⟩ ⟨true, false, ⟨some 50⟩, 50, [], []⟩ [Event.tick, Event.done] =
        Outcome.returned err ⟨true, false, ⟨some 50⟩, 50, [], []⟩ ∧
      (err = none ↔ (false = true)) ∧
      (false = false → err = some nothingReadError) :=
  ⟨by decide, idle_timer_branch_returns ⟨50, 0⟩ ⟨true, false, ⟨some 50⟩, 50, [], []⟩
    [Event.done] (by decide)⟩

/-- C3: in every state the loop reaches from its initial state, the ticker
has a channel only if `afterEOFMode` is true, and `afterEOFMode` is true only
if the done signal was consumed; so as long as the done signal has not been
consumed the idle-timer case cannot be taken, and `afterEOFMode`, once true,
stays true along every continuation. -/
theorem timer_armed_only_in_afterEOFMode (t : TelnetClient) (now : Nat) (tr : List Event)
    (s : LoopState) (h : ProcessData t now tr = Outcome.next s) :
    (s.afterEOFResponseTicker.C.isSome = true → s.afterEOFMode = true) ∧
    (s.afterEOFMode = true → Event.done ∈ tr) ∧
    (Event.done ∉ tr →
      ∀ rest, ProcessData t now (tr ++ Event.tick :: rest) = Outcome.notReady) ∧
    (∀ tr2 s2, run t s tr2 = Outcome.next s2 → s.afterEOFMode = true →
      s2.afterEOFMode = true) := by
  obtain ⟨_, a2, a3⟩ := run_invariant t tr (LoopState.init now) s h
  have hdone : s.afterEOFMode = true → Event.done ∈ tr := by
    intro x
    rcases a2 x with y | y
    · simp [LoopState.init] at y
    · exact y
  have harmed : s.afterEOFResponseTicker.C.isSome = true → s.afterEOFMode = true :=
    a3 (by simp [LoopState.init])
  refine ⟨harmed, hdone, ?_, ?_⟩
  · intro hnd rest
    unfold ProcessData at h ⊢
    rw [run_next_append t _ s tr _ h]
    have hnr : tickReady s = false := by
      cases hr : tickReady s with
      | false => rfl
      | true => exact absurd (hdone (harmed (tickReady_armed s hr))) hnd
    simp [run, step, hnr]
  · intro tr2 s2 h2
    exact (run_invariant t tr2 s s2 h2).1

/-- C3 on the trace of a write, the done signal and an inbound chunk. -/
theorem timer_armed_only_in_afterEOFMode_witness :
    ProcessData ⟨50, 0⟩ 7 [Event.request [65] none, Event.done, Event.response [66]] =
      Outcome.next ⟨true, true, ⟨some 57⟩, 7, [[65]], [66]⟩ ∧
    ((some 57 : Option Nat).isSome = true → true = true) ∧
    (true = true →
      Event.done ∈ [Event.request [65] none, Event.done, Event.response [66]]) :=
  have h := timer_armed_only_in_afterEOFMode ⟨50, 0⟩ 7
    [Event.request [65] none, Event.done, Event.response [66]]
    ⟨true, true, ⟨some 57⟩, 7, [[65]], [66]⟩ (by decide)
  ⟨by decide, h.1, h.2.1⟩

/-- C4: an outbound-write request hands its chunk, as it is, to
`connection.Write` (it is appended to the log of the write calls); when the
write reports an error `ProcessData` returns at once, whatever events would
follow, with the error "Error occured while writing to TCP socket: " followed
by the text of the write error and a newline; when it reports none the loop
goes on with `afterEOFMode`, `somethingRead`, the ticker, the clock and the
output as they were. -/
theorem write_request_step (t : TelnetClient) (s : LoopState) (chunk : GoString) :
    (∀ (error : GoError) (rest : List Event),
      run t s (Event.request chunk (some error) :: rest) =
        Outcome.returned
          (some (GoError.other
            (ascii "Error occured while writing to TCP socket: " ++ error.Error ++ ascii "\n")))
          { s with written := s.written ++ [chunk] }) ∧
    step t s (Event.request chunk none) =
      Outcome.next { s with written := s.written ++ [chunk] } := by
  refine ⟨fun error rest => ?_, rfl⟩
  simp only [run, step]
  rfl

/-- The loop alone, on the bytes each received slice holds when line 93
copies it: the output grows by these bytes in the order taken (the conversion
of line 93 gives back every byte slice unchanged), and after any inbound-data
event `somethingRead` is true; with a positive response timeout every
sequence of inbound events is taken to the end, and a slice holding "PONG\n"
puts exactly "PONG\n" on the output. What the slice holds at that moment is
settled by the two goroutines of the inbound path. -/
theorem inbound_chunks_reach_output (t : TelnetClient) (s s1 : LoopState) (tr : List Event)
    (h : run t s tr = Outcome.next s1) :
    (∀ response : GoString, renderResponse response = response) ∧
    s1.output = s.output ++ (responsesOf tr).flatten ∧
    (responsesOf tr ≠ [] → s1.somethingRead = true) ∧
    (0 < t.responseTimeout → ∀ (chunks : List GoString) (s0 : LoopState),
      ∃ s2, run t s0 (chunks.map Event.response) = Outcome.next s2 ∧
        s2.output = s0.output ++ chunks.flatten ∧
        (chunks ≠ [] → s2.somethingRead = true)) ∧
    (∀ now, ∃ s2, ProcessData t now [Event.response (ascii "PONG\n")] = Outcome.next s2 ∧
      s2.output = ascii "PONG\n" ∧ s2.somethingRead = true) := by
  obtain ⟨o1, o2, _⟩ := run_output t tr s s1 h
  refine ⟨renderResponse_id, o1, o2, ?_, ?_⟩
  · intro hpos chunks s0
    obtain ⟨s2, h2⟩ := run_responses t hpos chunks s0
    obtain ⟨p1, p2, _⟩ := run_output t _ s0 s2 h2
    rw [responsesOf_map] at p1 p2
    exact ⟨s2, h2, p1, p2⟩
  · intro now
    exact ⟨_, rfl, rfl, rfl⟩

/-- The loop alone on a trace with three inbound events, one of them empty
and one with a byte that is not valid UTF-8, around the done signal. -/
theorem inbound_chunks_reach_output_witness :
    run ⟨50, 0⟩ (LoopState.init 0)
        [Event.response [80, 255], Event.done, Event.response [], Event.response [10]] =
      Outcome.next ⟨true, true, ⟨some 50⟩, 0, [], [80, 255, 10]⟩ ∧
    (⟨true, true, ⟨some 50⟩, 0, [], [80, 255, 10]⟩ : LoopState).output =
      (LoopState.init 0).output ++
        (responsesOf
          [Event.response [80, 255], Event.done, Event.response [], Event.response [10]]).flatten :=
  ⟨by decide, (inbound_chunks_reach_output ⟨50, 0⟩ (LoopState.init 0)
    ⟨true, true, ⟨some 50⟩, 0, [], [80, 255, 10]⟩
    [Event.response [80, 255], Event.done, Event.response [], Event.response [10]]
    (by decide)).2.1⟩

/-- C7: with a response timeout of `T` nanoseconds, the next tick is set to
`now + T` by the done signal and by an inbound chunk taken in `afterEOFMode`;
an inbound chunk taken before, an outbound write and the passing of time leave
the ticker as it is. On the trace [input ends, wait T − ε, receive a byte,
wait T − ε, receive a byte, wait T + ε] the idle-timer case is not ready after
any of the first five events nor at the start, and taking it after the last
wait makes `ProcessData` return a nil error. -/
theorem idle_deadline_rearmed (t : TelnetClient) (s : LoopState) (T ε now : Nat) (b : Byte)
    (hT : t.responseTimeout = (T : Int)) (hε : 0 < ε) (hεT : ε ≤ T) :
    step t s Event.done =
      Outcome.next { s with afterEOFMode := true,
                            afterEOFResponseTicker := ⟨some (s.now + T)⟩ } ∧
    (∀ chunk, s.afterEOFMode = true →
      step t s (Event.response chunk) =
        Outcome.next { s with output := s.output ++ chunk, somethingRead := true,
                              afterEOFResponseTicker := ⟨some (s.now + T)⟩ }) ∧
    (∀ chunk, s.afterEOFMode = false →
      step t s (Event.response chunk) =
        Outcome.next { s with output := s.output ++ chunk, somethingRead := true }) ∧
    (∀ chunk, step t s (Event.request chunk none) =
        Outcome.next { s with written := s.written ++ [chunk] }) ∧
    (∀ d, step t s (Event.wait d) = Outcome.next { s with now := s.now + d }) ∧
    (∀ k, k < (resetScenario T ε b).length →
      ProcessData t now ((resetScenario T ε b).take k ++ [Event.tick]) = Outcome.notReady) ∧
    ProcessData t now (resetScenario T ε b ++ [Event.tick]) =
      Outcome.returned none
        ⟨true, true, ⟨some (now + (T - ε) + (T - ε) + T)⟩,
          now + (T - ε) + (T - ε) + (T + ε), [], [b, b]⟩ := by
  have hpos : 0 < t.responseTimeout := by omega
  have hnat : t.responseTimeout.toNat = T := by omega
  have hnew : ∀ n, NewTicker n t.responseTimeout = some ⟨some (n + T)⟩ := by
    intro n
    rw [NewTicker_pos n _ hpos, hnat]
  have h1 : ¬ (now + T ≤ now) := by omega
  have h2 : ¬ (now + T ≤ now + (T - ε)) := by omega
  have h3 : ¬ (now + (T - ε) + T ≤ now + (T - ε)) := by omega
  have h4 : ¬ (now + (T - ε) + T ≤ now + (T - ε) + (T - ε)) := by omega
  have h5 : ¬ (now + (T - ε) + (T - ε) + T ≤ now + (T - ε) + (T - ε)) := by omega
  have h6 : now + (T - ε) + (T - ε) + T ≤ now + (T - ε) + (T - ε) + (T + ε) := by omega
  refine ⟨?_, ?_, ?_, fun _ => rfl, fun _ => rfl, ?_, ?_⟩
  · simp only [step, hnew]
  · intro chunk hm
    simp only [step, hnew, hm, if_true, renderResponse_id]
  · intro chunk hm
    simp only [step, hm, Bool.false_eq_true, if_false, renderResponse_id]
  · intro k hk
    have hk6 : k < 6 := hk
    interval_cases k <;>
      simp [resetScenario, ProcessData, run, step, hnew, tickReady, LoopState.init,
        renderResponse_id, h1, h2, h3, h4, h5]
  · simp [resetScenario, ProcessData, run, step, hnew, tickReady, LoopState.init,
      renderResponse_id, h6]

/-- C7 with a timeout of 100 and waits of 99, 99 and 101. -/
theorem idle_deadline_rearmed_witness :
    ProcessData ⟨100, 0⟩ 0 (resetScenario 100 1 65 ++ [Event.tick]) =
      Outcome.returned none ⟨true, true, ⟨some 298⟩, 299, [], [65, 65]⟩ :=
  (idle_deadline_rearmed ⟨100, 0⟩ (LoopState.init 0) 100 1 0 65 rfl (by decide)
    (by decide)).2.2.2.2.2.2

theorem Read_empty (buffer : List Byte) (e : Option GoError) :
    Read buffer ⟨[], e⟩ = (buffer, 0, e) := by
  simp [Read]

theorem overlapping_exec (t : TelnetClient) (l : LoopState) (b : List Byte)
    (hb : 1 ≤ b.length) (h : 0 < t.responseTimeout) :
    (exec t ⟨b, inputAB, ReaderPC.atRead, none, l⟩ overlappingSchedule).map
        (fun r => (r.loop.written, r.loop.afterEOFMode)) =
      some (l.written ++ [[66], [66], []], true) := by
  have e1 : (Read b ⟨[65], none⟩).2.1 = 1 := Read_n _ _ hb
  have l1 := Read_length b ⟨[65], none⟩
  have e2 : (Read (Read b ⟨[65], none⟩).1 ⟨[66], none⟩).2.1 = 1 :=
    Read_n _ _ (by rw [l1]; exact hb)
  have t2 := Read_take (Read b ⟨[65], none⟩).1 ⟨[66], none⟩ (by rw [l1]; exact hb)
  rw [e2] at t2
  have ha : assertEOF GoError.EOF = none := by decide
  simp [exec, move, inputAB, overlappingSchedule, step, Outcome.next?, e1, e2, Read_err,
    Read_empty, NewTicker_pos _ _ h, ha, t2]

theorem orderly_exec (t : TelnetClient) (l : LoopState) (b : List Byte)
    (hb : 1 ≤ b.length) (h : 0 < t.responseTimeout) :
    (exec t ⟨b, inputAB, ReaderPC.atRead, none, l⟩ orderlySchedule).map
        (fun r => (r.loop.written, r.loop.afterEOFMode)) =
      some (l.written ++ [[65], [66], []], true) := by
  have e1 : (Read b ⟨[65], none⟩).2.1 = 1 := Read_n _ _ hb
  have l1 := Read_length b ⟨[65], none⟩
  have t1 := Read_take b ⟨[65], none⟩ hb
  rw [e1] at t1
  have e2 : (Read (Read b ⟨[65], none⟩).1 ⟨[66], none⟩).2.1 = 1 :=
    Read_n _ _ (by rw [l1]; exact hb)
  have t2 := Read_take (Read b ⟨[65], none⟩).1 ⟨[66], none⟩ (by rw [l1]; exact hb)
  rw [e2] at t2
  have ha : assertEOF GoError.EOF = none := by decide
  simp [exec, move, inputAB, orderlySchedule, step, Outcome.next?, e1, e2, Read_err,
    Read_empty, NewTicker_pos _ _ h, ha, t1, t2]

theorem step_response_keeps (t : TelnetClient) (l s : LoopState) (chunk : GoString)
    (h : (step t l (Event.response chunk)).next? = some s) :
    s.written = l.written ∧ s.afterEOFMode = l.afterEOFMode := by
  simp only [step] at h
  cases hm : l.afterEOFMode with
  | false =>
    simp only [hm, Bool.false_eq_true, if_false, Outcome.next?, Option.some.injEq] at h
    subst h
    exact ⟨rfl, rfl⟩
  | true =>
    simp only [hm, if_true] at h
    cases hn : NewTicker l.now t.responseTimeout with
    | none => simp [hn, Outcome.next?] at h
    | some ticker =>
      simp only [hn, Outcome.next?, Option.some.injEq] at h
      subst h
      exact ⟨rfl, rfl⟩

theorem step_tick_no_next (t : TelnetClient) (l : LoopState) :
    (step t l Event.tick).next? = none := by
  cases hs : step t l Event.tick with
  | next s2 => exact absurd hs (step_tick_ne_next t l s2)
  | returned err s2 => rfl
  | panicked s2 => rfl
  | notReady => rfl

theorem move_orderly (t : TelnetClient) (r r1 : Relay) (m : Move)
    (performed : List ReadResult) (hinv : r.Orderly performed)
    (hord : r.orderlyMove m = true) (hm : move t r m = some r1) :
    ∃ performed1, r1.Orderly performed1 ∧ performed1 ++ r1.reads = performed ++ r.reads := by
  obtain ⟨hlen, hfit, hbytes, hmode, hsend⟩ := hinv
  obtain ⟨buffer, reads, pc, request, loop⟩ := r
  simp only at hlen hfit hbytes hmode hsend
  cases m with
  | read =>
    simp only [Relay.orderlyMove, Option.isNone_iff_eq_none] at hord
    subst hord
    cases pc with
    | atRead =>
      cases reads with
      | nil => simp [move] at hm
      | cons x xs =>
        simp only [move, Option.some.injEq] at hm
        subst hm
        have hx : x.data.length ≤ buffer.length := by
          rw [hlen]
          exact hfit x (List.mem_cons_self _ _)
        refine ⟨performed ++ [x], ⟨?_, ?_, ?_, ?_, ?_⟩, by simp⟩
        · simp only [Read_length, hlen]
        · exact fun y hy => hfit y (List.mem_cons_of_mem _ hy)
        · simp only [Relay.inflight, Read_take buffer x hx] at hbytes ⊢
          simp only [List.append_nil] at hbytes
          simp [hbytes]
        · intro h
          have := (hmode h).1
          simp at this
        · intro n e _
          rfl
    | atSend n e => simp [move] at hm
    | atAssert e => simp [move] at hm
    | atDone => simp [move] at hm
    | ended e => simp [move] at hm
  | handOver =>
    cases pc with
    | atSend n e =>
      cases request with
      | none =>
        simp only [move, Option.some.injEq] at hm
        subst hm
        refine ⟨performed, ⟨hlen, hfit, ?_, ?_, ?_⟩, rfl⟩
        · simpa [Relay.inflight] using hbytes
        · intro h
          have := (hmode h).1
          simp at this
        · intro n1 e1 h1
          cases e <;> simp at h1
      | some k => simp [move] at hm
    | atRead => simp [move] at hm
    | atAssert e => simp [move] at hm
    | atDone => simp [move] at hm
    | ended e => simp [move] at hm
  | write werr =>
    cases request with
    | none => simp [move] at hm
    | some k =>
      cases werr with
      | some e => simp [move, step, Outcome.next?] at hm
      | none =>
        simp only [move, step, Outcome.next?, Option.map_some', Option.some.injEq] at hm
        subst hm
        refine ⟨performed, ⟨hlen, hfit, ?_, ?_, ?_⟩, rfl⟩
        · cases pc with
          | atSend n e => simp at hsend
          | atRead => simpa [Relay.inflight] using hbytes
          | atAssert e => simpa [Relay.inflight] using hbytes
          | atDone => simpa [Relay.inflight] using hbytes
          | ended e => simpa [Relay.inflight] using hbytes
        · intro h
          have := (hmode h).2
          simp at this
        · intro n e _
          rfl
  | assert =>
    cases pc with
    | atAssert e =>
      simp only [move] at hm
      cases ha : assertEOF e with
      | some msg => simp [ha] at hm
      | none =>
        simp only [ha, Option.some.injEq] at hm
        subst hm
        refine ⟨performed, ⟨hlen, hfit, ?_, ?_, ?_⟩, rfl⟩
        · cases request <;> simpa [Relay.inflight] using hbytes
        · intro h
          have := (hmode h).1
          simp at this
        · intro n e1 h1
          simp at h1
    | atRead => simp [move] at hm
    | atSend n e => simp [move] at hm
    | atDone => simp [move] at hm
    | ended e => simp [move] at hm
  | signal =>
    cases pc with
    | atDone =>
      cases request with
      | some k => simp [move] at hm
      | none =>
        simp only [move, step] at hm
        cases hn : NewTicker loop.now t.responseTimeout with
        | none => simp [hn, Outcome.next?] at hm
        | some ticker =>
          simp only [hn, Outcome.next?, Option.map_some', Option.some.injEq] at hm
          subst hm
          refine ⟨performed, ⟨hlen, hfit, ?_, ?_, ?_⟩, rfl⟩
          · simpa [Relay.inflight] using hbytes
          · intro _
            exact ⟨rfl, rfl⟩
          · intro n e h1
            simp at h1
    | atRead => simp [move] at hm
    | atSend n e => simp [move] at hm
    | atAssert e => simp [move] at hm
    | ended e => simp [move] at hm
  | other e =>
    have hkeep : ∀ s : LoopState, s.written = loop.written → s.afterEOFMode = loop.afterEOFMode →
        (Relay.mk buffer reads pc request s).Orderly performed := by
      intro s hw ha
      refine ⟨hlen, hfit, ?_, ?_, hsend⟩
      · simpa [Relay.inflight, hw] using hbytes
      · intro h
        exact hmode (by simpa [ha] using h)
    cases e with
    | request chunk werr => cases request <;> simp [move] at hm
    | done => cases request <;> simp [move] at hm
    | response chunk =>
      cases request with
      | some k => simp [move] at hm
      | none =>
        simp only [move] at hm
        cases hs : (step t loop (Event.response chunk)).next? with
        | none => simp [hs] at hm
        | some s =>
          simp only [hs, Option.map_some', Option.some.injEq] at hm
          subst hm
          obtain ⟨hw, ha⟩ := step_response_keeps t loop s chunk hs
          exact ⟨performed, hkeep s hw ha, rfl⟩
    | tick =>
      cases request with
      | some k => simp [move] at hm
      | none => simp [move, step_tick_no_next] at hm
    | wait d =>
      have hm2 : r1 = Relay.mk buffer reads pc request { loop with now := loop.now + d } := by
        cases request <;> simp [move, step, Outcome.next?] at hm <;> exact hm.symm
      subst hm2
      exact ⟨performed, hkeep _ rfl rfl, rfl⟩

theorem execOrderly_inv (t : TelnetClient) (sched : List Move) :
    ∀ (r r1 : Relay) (performed : List ReadResult), r.Orderly performed →
      execOrderly t r sched = some r1 →
      ∃ performed1, r1.Orderly performed1 ∧
        performed1 ++ r1.reads = performed ++ r.reads := by
  induction sched with
  | nil =>
    intro r r1 performed hinv h
    simp only [execOrderly, Option.some.injEq] at h
    subst h
    exact ⟨performed, hinv, rfl⟩
  | cons m ms ih =>
    intro r r1 performed hinv h
    simp only [execOrderly] at h
    cases hord : r.orderlyMove m with
    | false => simp [hord] at h
    | true =>
      simp only [hord, if_true] at h
      cases hm : move t r m with
      | none => simp [hm] at h
      | some r2 =>
        simp only [hm] at h
        obtain ⟨p2, hinv2, hp2⟩ := move_orderly t r r2 m performed hinv hord hm
        obtain ⟨p3, hinv3, hp3⟩ := ih r2 r1 p2 hinv2 h
        exact ⟨p3, hinv3, hp3.trans hp2⟩

theorem Relay.init_orderly (now : Nat) (reads : List ReadResult)
    (hfit : ∀ x ∈ reads, x.data.length ≤ defaultBufferSize) :
    (Relay.init now reads).Orderly [] := by
  refine ⟨defaultBuffer_length, hfit, rfl, ?_, ?_⟩
  · intro h
    simp [Relay.init, LoopState.init] at h
  · intro n e h
    simp [Relay.init] at h

/-- In every schedule in which no `Read` of the reader runs while the loop
holds an unwritten slice, the bytes written to the connection are a prefix of
the bytes read from the input, and once the done signal is consumed they are
all the bytes read. -/
theorem orderly_schedule_keeps_order (t : TelnetClient) (now : Nat) (reads : List ReadResult)
    (sched : List Move) (r : Relay)
    (hfit : ∀ x ∈ reads, x.data.length ≤ defaultBufferSize)
    (h : execOrderly t (Relay.init now reads) sched = some r) :
    ∃ performed, performed ++ r.reads = reads ∧
      r.loop.written.flatten <+: (performed.map (fun x => x.data)).flatten ∧
      (r.loop.afterEOFMode = true →
        r.loop.written.flatten = (performed.map (fun x => x.data)).flatten) := by
  obtain ⟨performed, ⟨_, _, hbytes, hmode, _⟩, hp⟩ :=
    execOrderly_inv t sched _ r [] (Relay.init_orderly now reads hfit) h
  refine ⟨performed, by simpa [Relay.init] using hp, ⟨r.inflight, hbytes⟩, ?_⟩
  intro ha
  obtain ⟨hpc, hreq⟩ := hmode ha
  have hin : r.inflight = [] := by
    simp [Relay.inflight, hpc, hreq]
  rw [hin, List.append_nil] at hbytes
  exact hbytes

/-! ## The claims on the reader goroutines -/

theorem assertEOF_EOF : assertEOF GoError.EOF = none := by decide

theorem assertEOF_isSome (e : GoError) :
    (assertEOF e).isSome = true ↔ e.Error ≠ ascii "EOF" := by
  unfold assertEOF
  by_cases h : ascii "EOF" = e.Error
  · simp [h]
  · have h2 : e.Error ≠ ascii "EOF" := fun x => h x.symm
    simp [h, h2]

theorem readInputData_error (pre : List ReadResult) (last : ReadResult)
    (rest : List ReadResult) (e : GoError)
    (hpre : ∀ r ∈ pre, r.err = none) (hlast : last.err = some e) :
    readInputData (pre ++ last :: rest) =
      match assertEOF e with
      | some msg =>
        ((pre ++ [last]).map (fun r => InputSend.toSent (r.data.take defaultBufferSize)),
          ReaderEnd.fatal msg)
      | none =>
        ((pre ++ [last]).map (fun r => InputSend.toSent (r.data.take defaultBufferSize)) ++
          [InputSend.doneChannel], ReaderEnd.returned) := by
  rw [readInputData_clamped, map_fitTo_split,
    inputSends_error (pre.map (fitTo defaultBufferSize)) (fitTo defaultBufferSize last) _ e
      (by
        intro r hr
        obtain ⟨x, hx, rfl⟩ := List.mem_map.mp hr
        exact hpre x hx)
      hlast]
  have hm : (pre.map (fitTo defaultBufferSize) ++ [fitTo defaultBufferSize last]).map
      (fun r => InputSend.toSent r.data) =
      (pre ++ [last]).map (fun r => InputSend.toSent (r.data.take defaultBufferSize)) := by
    simp [fitTo]
  rw [hm]

theorem readServerData_error (pre : List ReadResult) (last : ReadResult)
    (rest : List ReadResult) (e : GoError)
    (hpre : ∀ r ∈ pre, r.err = none) (hlast : last.err = some e) :
    readServerData (pre ++ last :: rest) =
      ((pre ++ [last]).map (fun r => r.data.take defaultBufferSize),
        match assertEOF e with
        | some msg => ReaderEnd.fatal msg
        | none => ReaderEnd.returned) := by
  rw [readServerData_clamped, map_fitTo_split,
    serverSends_error (pre.map (fitTo defaultBufferSize)) (fitTo defaultBufferSize last) _ e
      (by
        intro r hr
        obtain ⟨x, hx, rfl⟩ := List.mem_map.mp hr
        exact hpre x hx)
      hlast]
  have hm : (pre.map (fitTo defaultBufferSize) ++ [fitTo defaultBufferSize last]).map
      (fun r => r.data) =
      (pre ++ [last]).map (fun r => r.data.take defaultBufferSize) := by
    simp [fitTo]
  rw [hm]

theorem count_done_map_toSent (l : List ReadResult) (f : ReadResult → GoString) :
    (l.map (fun r => InputSend.toSent (f r))).count InputSend.doneChannel = 0 := by
  induction l with
  | nil => rfl
  | cons r rs ih => simp [List.count_cons, ih]

theorem done_not_mem_map_toSent (l : List ReadResult) (f : ReadResult → GoString) :
    InputSend.doneChannel ∉ l.map (fun r => InputSend.toSent (f r)) := by
  simp

theorem chunks_map_toSent_take (l : List ReadResult) (f : ReadResult → GoString) :
    InputSend.chunks (l.map (fun r => InputSend.toSent (f r))) = l.map f := by
  induction l with
  | nil => rfl
  | cons r rs ih => simp [InputSend.chunks, ih]

theorem map_take_of_fits (l : List ReadResult)
    (h : ∀ r ∈ l, r.data.length ≤ defaultBufferSize) :
    l.map (fun r => r.data.take defaultBufferSize) = l.map (fun r => r.data) := by
  apply List.map_congr_left
  intro r hr
  exact List.take_of_length_le (h r hr)

/-- C9: when the reads of the input end with end-of-stream (`io.EOF`),
`readInputData` sends one chunk for each read up to and including that one,
then one done signal, and returns: the done signal is sent exactly once, it is
the last send, and every chunk is sent before it; when the reads fit the
buffer the chunks sent before the signal hold all the bytes read. -/
theorem done_signal_is_last (pre : List ReadResult) (last : ReadResult)
    (rest : List ReadResult)
    (hpre : ∀ r ∈ pre, r.err = none) (hlast : last.err = some GoError.EOF) :
    readInputData (pre ++ last :: rest) =
      ((pre ++ [last]).map (fun r => InputSend.toSent (r.data.take defaultBufferSize)) ++
        [InputSend.doneChannel], ReaderEnd.returned) ∧
    (readInputData (pre ++ last :: rest)).1.count InputSend.doneChannel = 1 ∧
    (readInputData (pre ++ last :: rest)).1.getLast? = some InputSend.doneChannel ∧
    ((∀ r ∈ pre ++ [last], r.data.length ≤ defaultBufferSize) →
      (InputSend.chunks (readInputData (pre ++ last :: rest)).1).flatten =
        ((pre ++ [last]).map (fun r => r.data)).flatten) := by
  have h := readInputData_error pre last rest GoError.EOF hpre hlast
  rw [assertEOF_EOF] at h
  refine ⟨h, ?_, ?_, ?_⟩
  · rw [h]
    simp only [List.count_append, count_done_map_toSent]
    rfl
  · rw [h]
    simp
  · intro hfit
    rw [h]
    simp only [chunks_append_done, chunks_map_toSent_take, map_take_of_fits _ hfit]

/-- C9 on the input "PING\n" read in two pieces before end-of-input. -/
theorem done_signal_is_last_witness :
    readInputData ([⟨[80, 73], none⟩, ⟨[78, 71, 10], none⟩] ++ ⟨[], some GoError.EOF⟩ :: []) =
      (([ReadResult.mk [80, 73] none, ReadResult.mk [78, 71, 10] none] ++
            [ReadResult.mk [] (some GoError.EOF)]).map
          (fun r => InputSend.toSent (r.data.take defaultBufferSize)) ++
        [InputSend.doneChannel], ReaderEnd.returned) :=
  (done_signal_is_last [⟨[80, 73], none⟩, ⟨[78, 71, 10], none⟩] ⟨[], some GoError.EOF⟩ []
    (by decide) rfl).1

/-- C8, as the code has it: `readInputData` sends one chunk for every read
it makes, up to and including the read that reports an error, whatever the
number of bytes read: each chunk holds the bytes of its read, cut to the
buffer, so its length lies between 0 and 4096, and a read of zero bytes, such
as the last read at end-of-input, gives a chunk of length zero. -/
theorem every_read_sends_a_chunk (pre : List ReadResult) (last : ReadResult)
    (rest : List ReadResult) (e : GoError)
    (hpre : ∀ r ∈ pre, r.err = none) (hlast : last.err = some e) :
    InputSend.chunks (readInputData (pre ++ last :: rest)).1 =
      (pre ++ [last]).map (fun r => r.data.take defaultBufferSize) ∧
    (∀ c ∈ InputSend.chunks (readInputData (pre ++ last :: rest)).1,
      c.length ≤ defaultBufferSize) ∧
    ((∀ r ∈ pre ++ [last], r.data.length ≤ defaultBufferSize) →
      InputSend.chunks (readInputData (pre ++ last :: rest)).1 =
        (pre ++ [last]).map (fun r => r.data)) ∧
    (last.data = [] → [] ∈ InputSend.chunks (readInputData (pre ++ last :: rest)).1) := by
  have h := readInputData_error pre last rest e hpre hlast
  have hc : InputSend.chunks (readInputData (pre ++ last :: rest)).1 =
      (pre ++ [last]).map (fun r => r.data.take defaultBufferSize) := by
    rw [h]
    cases assertEOF e with
    | none => simp only [chunks_append_done, chunks_map_toSent_take]
    | some msg => simp only [chunks_map_toSent_take]
  refine ⟨hc, ?_, ?_, ?_⟩
  · intro c hmem
    rw [hc] at hmem
    obtain ⟨r, _, rfl⟩ := List.mem_map.mp hmem
    simp only [List.length_take]
    exact Nat.min_le_left _ _
  · intro hfit
    rw [hc, map_take_of_fits _ hfit]
  · intro hempty
    rw [hc]
    apply List.mem_map.mpr
    exact ⟨last, by simp, by simp [hempty]⟩

/-- C8 as amended, on two bytes followed by a read of zero bytes with `io.EOF`. -/
theorem every_read_sends_a_chunk_witness :
    InputSend.chunks
        (readInputData ([⟨[80, 73], none⟩] ++ ⟨[], some GoError.EOF⟩ :: [])).1 =
      ([ReadResult.mk [80, 73] none] ++ [ReadResult.mk [] (some GoError.EOF)]).map
        (fun r => r.data.take defaultBufferSize) :=
  (every_read_sends_a_chunk [⟨[80, 73], none⟩] ⟨[], some GoError.EOF⟩ [] GoError.EOF
    (by decide) rfl).1

/-- C8 fails as stated: on an input of one byte followed by end-of-input,
the last read gives zero bytes with `io.EOF`, and `readInputData` sends the
empty slice as an outbound-write request before the done signal; the loop then
calls `connection.Write` with a slice of length zero. -/
theorem empty_chunk_sent_at_end_of_input :
    readInputData [⟨[65], none⟩, ⟨[], some GoError.EOF⟩] =
      ([InputSend.toSent [65], InputSend.toSent [], InputSend.doneChannel],
        ReaderEnd.returned) ∧
    ¬ (∀ c ∈ InputSend.chunks (readInputData [⟨[65], none⟩, ⟨[], some GoError.EOF⟩]).1,
        1 ≤ c.length) ∧
    ProcessData ⟨50, 0⟩ 0
        ((readInputData [⟨[65], none⟩, ⟨[], some GoError.EOF⟩]).1.map InputSend.toEvent) =
      Outcome.next ⟨true, false, ⟨some 50⟩, 0, [[65], []], []⟩ := by
  have h : readInputData [⟨[65], none⟩, ⟨[], some GoError.EOF⟩] =
      ([InputSend.toSent [65], InputSend.toSent [], InputSend.doneChannel],
        ReaderEnd.returned) := by
    rw [readInputData_eq _ (by decide)]
    decide
  rw [h]
  exact ⟨rfl, by decide, by decide⟩

/-- C10, as the code has it: `assertEOF` ends the process exactly when the
text of the error differs from "EOF". So `io.EOF` is never fatal; a read error
whose text is not "EOF" is fatal in both readers, with the message
"Error occured while operating on TCP socket: " followed by the text and a
newline, and then `readInputData` sends no done signal; and an error whose
text is "EOF" lets the reader return, `readInputData` after its done signal. -/
theorem assertEOF_decides_by_message (pre : List ReadResult) (last : ReadResult)
    (rest : List ReadResult) (e : GoError)
    (hpre : ∀ r ∈ pre, r.err = none) (hlast : last.err = some e) :
    ((assertEOF e).isSome = true ↔ e.Error ≠ ascii "EOF") ∧
    assertEOF GoError.EOF = none ∧
    (e.Error ≠ ascii "EOF" →
      InputSend.doneChannel ∉ (readInputData (pre ++ last :: rest)).1 ∧
      (readInputData (pre ++ last :: rest)).2 =
        ReaderEnd.fatal
          (ascii "Error occured while operating on TCP socket: " ++ e.Error ++ ascii "\n") ∧
      (readServerData (pre ++ last :: rest)).2 =
        ReaderEnd.fatal
          (ascii "Error occured while operating on TCP socket: " ++ e.Error ++ ascii "\n")) ∧
    (e.Error = ascii "EOF" →
      (readInputData (pre ++ last :: rest)).1.getLast? = some InputSend.doneChannel ∧
      (readInputData (pre ++ last :: rest)).2 = ReaderEnd.returned ∧
      (readServerData (pre ++ last :: rest)).2 = ReaderEnd.returned) := by
  have hi := readInputData_error pre last rest e hpre hlast
  have hs := readServerData_error pre last rest e hpre hlast
  refine ⟨assertEOF_isSome e, assertEOF_EOF, ?_, ?_⟩
  · intro hne
    have ha : assertEOF e = some
        (ascii "Error occured while operating on TCP socket: " ++ e.Error ++ ascii "\n") := by
      unfold assertEOF
      rw [if_pos (fun x => hne x.symm)]
      rfl
    rw [ha] at hi hs
    rw [hi, hs]
    exact ⟨done_not_mem_map_toSent _ _, rfl, rfl⟩
  · intro heq
    have ha : assertEOF e = none := by
      unfold assertEOF
      rw [if_neg (fun x => x heq.symm)]
    rw [ha] at hi hs
    rw [hi, hs]
    exact ⟨by simp, rfl, rfl⟩

/-- C10 as amended, on a read that fails with "connection reset by peer". -/
theorem assertEOF_decides_by_message_witness :
    (readInputData ([⟨[65], none⟩] ++
        ⟨[], some (GoError.other (ascii "connection reset by peer"))⟩ :: [])).2 =
      ReaderEnd.fatal
        (ascii "Error occured while operating on TCP socket: " ++
          (GoError.other (ascii "connection reset by peer")).Error ++ ascii "\n") :=
  ((assertEOF_decides_by_message [⟨[65], none⟩]
    ⟨[], some (GoError.other (ascii "connection reset by peer"))⟩ []
    (GoError.other (ascii "connection reset by peer")) (by decide) rfl).2.2.1
      (by decide)).2.1

/-- C10 fails as stated: an error that is not `io.EOF` but whose text is
"EOF" is a read error other than end-of-stream, and `assertEOF` does not treat
it as fatal: `readInputData` goes on to send its done signal and returns. -/
theorem error_with_text_EOF_is_not_fatal :
    GoError.other (ascii "EOF") ≠ GoError.EOF ∧
    assertEOF (GoError.other (ascii "EOF")) = none ∧
    readInputData [⟨[], some (GoError.other (ascii "EOF"))⟩] =
      ([InputSend.toSent [], InputSend.doneChannel], ReaderEnd.returned) := by
  refine ⟨by decide, by decide, ?_⟩
  rw [readInputData_eq _ (by decide)]
  decide

/-! ## The claims on the whole relay -/

/-- C2, the code at the failing input: the input is empty (its first read
gives zero bytes and `io.EOF`), the remote side closes without sending a byte
(the first read of the connection gives zero bytes and `io.EOF`), and the
timeout is 50. `readServerData` sends the empty slice, the loop takes it as an
inbound chunk and sets `somethingRead`, and when the ticker fires
`ProcessData` returns a nil error although no remote byte was received. -/
theorem remote_end_of_stream_counts_as_read :
    readInputData [⟨[], some GoError.EOF⟩] =
      ([InputSend.toSent [], InputSend.doneChannel], ReaderEnd.returned) ∧
    readServerData [⟨[], some GoError.EOF⟩] = ([[]], ReaderEnd.returned) ∧
    ProcessData ⟨50, 0⟩ 0
        ((readInputData [⟨[], some GoError.EOF⟩]).1.map InputSend.toEvent ++
          (readServerData [⟨[], some GoError.EOF⟩]).1.map Event.response ++
          [Event.wait 50, Event.tick]) =
      Outcome.returned none ⟨true, true, ⟨some 50⟩, 50, [[]], []⟩ := by
  have hi : readInputData [⟨[], some GoError.EOF⟩] =
      ([InputSend.toSent [], InputSend.doneChannel], ReaderEnd.returned) := by
    rw [readInputData_eq _ (by decide)]
    decide
  have hs : readServerData [⟨[], some GoError.EOF⟩] = ([[]], ReaderEnd.returned) := by
    rw [readServerData_eq _ (by decide)]
    decide
  rw [hi, hs]
  exact ⟨rfl, rfl, by decide⟩

/-- With a remote side from which no chunk at all is taken, the idle timer
makes `ProcessData` fail with the error of line 102. -/
theorem silent_remote_fails (t : TelnetClient) (now : Nat) (tr : List Event) (s : LoopState)
    (h : ProcessData t now tr = Outcome.next s) (hno : responsesOf tr = [])
    (hready : tickReady s = true) :
    ProcessData t now (tr ++ [Event.tick]) = Outcome.returned (some nothingReadError) s := by
  have hsr : s.somethingRead = false := by
    have := (run_quiet t tr (LoopState.init now) s h hno)
    simpa [LoopState.init] using this
  unfold ProcessData at h ⊢
  rw [run_next_append t _ s tr _ h]
  simp only [run, step, hready, hsr, if_true]
  rfl

/-- C5, the code at the failing input: the input "AB" comes one byte per
read, then a read of zero bytes with `io.EOF`. When the reader's second `Read`
runs between the loop's receipt of the first slice and its call of
`connection.Write`, the shared buffer already holds 66, and the loop writes
66, 66 and the empty slice: the bytes written, "BB", are not a prefix of the
bytes read, "AB", also after the done signal is consumed. When each slice is
written before the next `Read`, the writes are 65, 66 and the empty slice. -/
theorem overlapping_read_breaks_write_order :
    InputSend.chunks (readInputData inputAB).1 = [[65], [66], []] ∧
    (exec ⟨50, 0⟩ (Relay.init 0 inputAB) overlappingSchedule).map
        (fun r => (r.loop.written, r.loop.afterEOFMode)) = some ([[66], [66], []], true) ∧
    ¬ (([[66], [66], []] : List GoString).flatten <+:
        ([[65], [66], []] : List GoString).flatten) ∧
    (exec ⟨50, 0⟩ (Relay.init 0 inputAB) orderlySchedule).map
        (fun r => (r.loop.written, r.loop.afterEOFMode)) = some ([[65], [66], []], true) := by
  have hb : 1 ≤ (List.replicate defaultBufferSize (0 : Byte)).length := by
    rw [defaultBuffer_length]
    decide
  refine ⟨?_, overlapping_exec ⟨50, 0⟩ (LoopState.init 0) _ hb (by decide), by decide,
    orderly_exec ⟨50, 0⟩ (LoopState.init 0) _ hb (by decide)⟩
  rw [readInputData_eq _ (by decide)]
  decide

theorem step_keeps_output (t : TelnetClient) (l s : LoopState) (e : Event)
    (he : ∀ chunk, e ≠ Event.response chunk) (h : (step t l e).next? = some s) :
    s.output = l.output := by
  cases e with
  | request chunk werr =>
    cases werr with
    | none =>
      simp only [step, Outcome.next?, Option.some.injEq] at h
      subst h
      rfl
    | some error => simp [step, Outcome.next?] at h
  | done =>
    simp only [step] at h
    cases hn : NewTicker l.now t.responseTimeout with
    | none => simp [hn, Outcome.next?] at h
    | some ticker =>
      simp only [hn, Outcome.next?, Option.some.injEq] at h
      subst h
      rfl
  | response chunk => exact absurd rfl (he chunk)
  | tick => simp [step_tick_no_next] at h
  | wait d =>
    simp only [step, Outcome.next?, Option.some.injEq] at h
    subst h
    rfl

theorem step_response_output (t : TelnetClient) (l s : LoopState) (chunk : GoString)
    (h : (step t l (Event.response chunk)).next? = some s) :
    s.output = l.output ++ chunk := by
  simp only [step, renderResponse_id] at h
  cases hm : l.afterEOFMode with
  | false =>
    simp only [hm, Bool.false_eq_true, if_false, Outcome.next?, Option.some.injEq] at h
    subst h
    rfl
  | true =>
    simp only [hm, if_true] at h
    cases hn : NewTicker l.now t.responseTimeout with
    | none => simp [hn, Outcome.next?] at h
    | some ticker =>
      simp only [hn, Outcome.next?, Option.some.injEq] at h
      subst h
      rfl

theorem inMove_orderly (t : TelnetClient) (r r1 : Inbound) (m : InMove)
    (performed : List ReadResult) (hinv : r.Orderly performed)
    (hord : r.orderlyMove m = true) (hm : inMove t r m = some r1) :
    ∃ performed1, r1.Orderly performed1 ∧ performed1 ++ r1.reads = performed ++ r.reads := by
  obtain ⟨hlen, hfit, hbytes, hsend⟩ := hinv
  obtain ⟨buffer, reads, pc, response, loop⟩ := r
  simp only at hlen hfit hbytes hsend
  cases m with
  | read =>
    simp only [Inbound.orderlyMove, Option.isNone_iff_eq_none] at hord
    subst hord
    cases pc with
    | atRead =>
      cases reads with
      | nil => simp [inMove] at hm
      | cons x xs =>
        simp only [inMove, Option.some.injEq] at hm
        subst hm
        have hx : x.data.length ≤ buffer.length := by
          rw [hlen]
          exact hfit x (List.mem_cons_self _ _)
        refine ⟨performed ++ [x], ⟨?_, ?_, ?_, ?_⟩, by simp⟩
        · simp only [Read_length, hlen]
        · exact fun y hy => hfit y (List.mem_cons_of_mem _ hy)
        · simp only [Inbound.inflight, Read_take buffer x hx] at hbytes ⊢
          simp only [List.append_nil] at hbytes
          simp [hbytes]
        · intro n e _
          rfl
    | atSend n e => simp [inMove] at hm
    | atAssert e => simp [inMove] at hm
    | ended e => simp [inMove] at hm
  | handOver =>
    cases pc with
    | atSend n e =>
      cases response with
      | none =>
        simp only [inMove, Option.some.injEq] at hm
        subst hm
        refine ⟨performed, ⟨hlen, hfit, ?_, ?_⟩, rfl⟩
        · simpa [Inbound.inflight] using hbytes
        · intro n1 e1 h1
          cases e <;> simp at h1
      | some k => simp [inMove] at hm
    | atRead => simp [inMove] at hm
    | atAssert e => simp [inMove] at hm
    | ended e => simp [inMove] at hm
  | output =>
    cases response with
    | none => simp [inMove] at hm
    | some k =>
      simp only [inMove] at hm
      cases hs : (step t loop (Event.response (buffer.take k))).next? with
      | none => simp [hs] at hm
      | some s =>
        simp only [hs, Option.map_some', Option.some.injEq] at hm
        subst hm
        have ho := step_response_output t loop s _ hs
        refine ⟨performed, ⟨hlen, hfit, ?_, ?_⟩, rfl⟩
        · cases pc with
          | atSend n e => simp at hsend
          | atRead => simpa [Inbound.inflight, ho] using hbytes
          | atAssert e => simpa [Inbound.inflight, ho] using hbytes
          | ended e => simpa [Inbound.inflight, ho] using hbytes
        · intro n e _
          rfl
  | assert =>
    cases pc with
    | atAssert e =>
      simp only [inMove] at hm
      cases ha : assertEOF e with
      | some msg => simp [ha] at hm
      | none =>
        simp only [ha, Option.some.injEq] at hm
        subst hm
        refine ⟨performed, ⟨hlen, hfit, ?_, ?_⟩, rfl⟩
        · cases response <;> simpa [Inbound.inflight] using hbytes
        · intro n e1 h1
          simp at h1
    | atRead => simp [inMove] at hm
    | atSend n e => simp [inMove] at hm
    | ended e => simp [inMove] at hm
  | other e =>
    have hkeep : ∀ s : LoopState, s.output = loop.output →
        (Inbound.mk buffer reads pc response s).Orderly performed := by
      intro s ho
      refine ⟨hlen, hfit, ?_, hsend⟩
      simpa [Inbound.inflight, ho] using hbytes
    have hstep : ∀ e1 : Event, (∀ chunk, e1 ≠ Event.response chunk) →
        (step t loop e1).next?.map (fun s => Inbound.mk buffer reads pc response s) = some r1 →
        ∃ performed1, r1.Orderly performed1 ∧ performed1 ++ r1.reads = performed ++ reads := by
      intro e1 he h1
      cases hs : (step t loop e1).next? with
      | none => simp [hs] at h1
      | some s =>
        simp only [hs, Option.map_some', Option.some.injEq] at h1
        subst h1
        exact ⟨performed, hkeep s (step_keeps_output t loop s e1 he hs), rfl⟩
    cases e with
    | response chunk => cases response <;> simp [inMove] at hm
    | wait d => exact hstep (Event.wait d) (by simp) (by cases response <;> simpa [inMove] using hm)
    | request chunk werr =>
      cases response with
      | some k => simp [inMove] at hm
      | none =>
        exact hstep (Event.request chunk werr) (by simp) (by simpa [inMove] using hm)
    | done =>
      cases response with
      | some k => simp [inMove] at hm
      | none => exact hstep Event.done (by simp) (by simpa [inMove] using hm)
    | tick =>
      cases response with
      | some k => simp [inMove] at hm
      | none => exact hstep Event.tick (by simp) (by simpa [inMove] using hm)

theorem inExecOrderly_inv (t : TelnetClient) (sched : List InMove) :
    ∀ (r r1 : Inbound) (performed : List ReadResult), r.Orderly performed →
      inExecOrderly t r sched = some r1 →
      ∃ performed1, r1.Orderly performed1 ∧
        performed1 ++ r1.reads = performed ++ r.reads := by
  induction sched with
  | nil =>
    intro r r1 performed hinv h
    simp only [inExecOrderly, Option.some.injEq] at h
    subst h
    exact ⟨performed, hinv, rfl⟩
  | cons m ms ih =>
    intro r r1 performed hinv h
    simp only [inExecOrderly] at h
    cases hord : r.orderlyMove m with
    | false => simp [hord] at h
    | true =>
      simp only [hord, if_true] at h
      cases hm : inMove t r m with
      | none => simp [hm] at h
      | some r2 =>
        simp only [hm] at h
        obtain ⟨p2, hinv2, hp2⟩ := inMove_orderly t r r2 m performed hinv hord hm
        obtain ⟨p3, hinv3, hp3⟩ := ih r2 r1 p2 hinv2 h
        exact ⟨p3, hinv3, hp3.trans hp2⟩

theorem Inbound.init_orderly_inbound (now : Nat) (reads : List ReadResult)
    (hfit : ∀ x ∈ reads, x.data.length ≤ defaultBufferSize) :
    (Inbound.init now reads).Orderly [] := by
  refine ⟨defaultBuffer_length, hfit, rfl, ?_⟩
  intro n e h
  simp [Inbound.init] at h

/-- In every schedule of the inbound path in which no `connection.Read`
runs while the loop holds a slice it has not copied, the bytes on the output
followed by the bytes of the slice in flight are the bytes received, in the
order received: the output is a prefix of them. -/
theorem orderly_inbound_keeps_order (t : TelnetClient) (now : Nat) (reads : List ReadResult)
    (sched : List InMove) (r : Inbound)
    (hfit : ∀ x ∈ reads, x.data.length ≤ defaultBufferSize)
    (h : inExecOrderly t (Inbound.init now reads) sched = some r) :
    ∃ performed, performed ++ r.reads = reads ∧
      r.loop.output ++ r.inflight = (performed.map (fun x => x.data)).flatten ∧
      r.loop.output <+: (performed.map (fun x => x.data)).flatten := by
  obtain ⟨performed, ⟨_, _, hbytes, _⟩, hp⟩ :=
    inExecOrderly_inv t sched _ r [] (Inbound.init_orderly_inbound now reads hfit) h
  exact ⟨performed, by simpa [Inbound.init] using hp, hbytes, ⟨r.inflight, hbytes⟩⟩

theorem overlapping_inExec (t : TelnetClient) (l : LoopState) (b : List Byte)
    (hb : 1 ≤ b.length) (hm : l.afterEOFMode = false) :
    (inExec t ⟨b, remoteAB, ServerPC.atRead, none, l⟩ overlappingInbound).map
        (fun r => (r.loop.output, r.loop.somethingRead)) =
      some (l.output ++ [66, 66], true) := by
  have e1 : (Read b ⟨[65], none⟩).2.1 = 1 := Read_n _ _ hb
  have l1 := Read_length b ⟨[65], none⟩
  have e2 : (Read (Read b ⟨[65], none⟩).1 ⟨[66], none⟩).2.1 = 1 :=
    Read_n _ _ (by rw [l1]; exact hb)
  have t2 := Read_take (Read b ⟨[65], none⟩).1 ⟨[66], none⟩ (by rw [l1]; exact hb)
  rw [e2] at t2
  have ha : assertEOF GoError.EOF = none := by decide
  simp [inExec, inMove, remoteAB, overlappingInbound, step, Outcome.next?, e1, e2, Read_err,
    Read_empty, ha, t2, hm, renderResponse_id]

theorem orderly_inExec (t : TelnetClient) (l : LoopState) (b : List Byte)
    (hb : 1 ≤ b.length) (hm : l.afterEOFMode = false) :
    (inExec t ⟨b, remoteAB, ServerPC.atRead, none, l⟩ orderlyInbound).map
        (fun r => (r.loop.output, r.loop.somethingRead)) =
      some (l.output ++ [65, 66], true) := by
  have e1 : (Read b ⟨[65], none⟩).2.1 = 1 := Read_n _ _ hb
  have l1 := Read_length b ⟨[65], none⟩
  have t1 := Read_take b ⟨[65], none⟩ hb
  rw [e1] at t1
  have e2 : (Read (Read b ⟨[65], none⟩).1 ⟨[66], none⟩).2.1 = 1 :=
    Read_n _ _ (by rw [l1]; exact hb)
  have t2 := Read_take (Read b ⟨[65], none⟩).1 ⟨[66], none⟩ (by rw [l1]; exact hb)
  rw [e2] at t2
  have ha : assertEOF GoError.EOF = none := by decide
  simp [inExec, inMove, remoteAB, orderlyInbound, step, Outcome.next?, e1, e2, Read_err,
    Read_empty, ha, t1, t2, hm, renderResponse_id]

/-- C6, the code at the failing input: the remote side sends "AB", received
one byte per `connection.Read`, then closes. When the reader's second
`connection.Read` runs between the loop's receipt of the first slice (line 92)
and the copy `string(response)` of line 93, the shared buffer already holds
66, and the loop gives 66, 66 to the output: the output "BB" is not the
concatenation "AB" of the chunks received, though every inbound event has set
`somethingRead`. When each slice is copied before the next `connection.Read`,
the output is 65, 66. -/
theorem overlapping_read_breaks_output_order :
    (readServerData remoteAB).1 = [[65], [66], []] ∧
    (inExec ⟨50, 0⟩ (Inbound.init 0 remoteAB) overlappingInbound).map
        (fun r => (r.loop.output, r.loop.somethingRead)) = some ([66, 66], true) ∧
    ([66, 66] : GoString) ≠ ([[65], [66], []] : List GoString).flatten ∧
    (inExec ⟨50, 0⟩ (Inbound.init 0 remoteAB) orderlyInbound).map
        (fun r => (r.loop.output, r.loop.somethingRead)) = some ([65, 66], true) := by
  have hb : 1 ≤ (List.replicate defaultBufferSize (0 : Byte)).length := by
    rw [defaultBuffer_length]
    decide
  refine ⟨?_, overlapping_inExec ⟨50, 0⟩ (LoopState.init 0) _ hb rfl, by decide,
    orderly_inExec ⟨50, 0⟩ (LoopState.init 0) _ hb rfl⟩
  rw [readServerData_eq _ (by decide)]
  decide

end GoTelnet
